import Mathlib

/-!
# Verification of the mimicss class-name minification engine

This file gives a shallow embedding of the `ClassMinifier` engine of the
mimicss repository (the current MagicString-based variant shipped with the
Vite plugin, which is the one the repository's test-suite exercises) and
proves properties of it.

Modelling conventions:

* External parsers (Babel for JS, postcss for CSS) are not re-implemented.
  A parsed JS program is modelled as its original character list together
  with the list of string-literal / template-chunk nodes the Babel traversal
  visits (each with its byte span, its decoded value, its ancestor chain and
  its concatenation / interpolation context, exactly the data the source
  code reads off the AST).  A parsed stylesheet is modelled as the sequence
  of class-selector component values visited by `walkRules`/`walkClasses`.
* JS strings are Lean `String`s; where the JS code indexes characters or
  slices by position we work on the underlying `List Char`.
* The regular expression `\s+` used for splitting class lists is modelled by
  the ASCII whitespace class; the exact extension of the whitespace class is
  irrelevant to every property proved here.
* An `exclude` option entry (a JS `RegExp`) is modelled as an opaque
  Boolean test `String → Bool`, which is all the engine uses (`pattern.test`).
* A JS `Map` is modelled as an association list with `set` replacing in
  place (JS `Map.set` keeps the original insertion position of a key), a JS
  `Set` as a duplicate-free list in insertion order.
* `Array.prototype.sort` with a consistent numeric comparator is a stable
  sort, whose output is uniquely determined; it is modelled by a stable
  insertion sort, which is structurally recursive and hence evaluates
  inside the kernel.
* The non-terminating `for (;;)` loop in `getNextName` (the documented
  configuration hazard: exclude rules can reject every candidate name) is
  modelled with explicit fuel; `none` models divergence.
-/

namespace Mimicss

/-! ## Whitespace splitting: `str.trim().split(/\s+/)` -/

/-- ASCII whitespace, the fragment of the `\s` character class relevant here. -/
def isWsChar (c : Char) : Bool :=
  c = ' ' || c = '\t' || c = '\n' || c = '\r' || c = '\x0b' || c = '\x0c'

/-- Worker for `tokenize`: `cur` holds the (reversed) token being read. -/
def tokenizeChars : List Char → List Char → List String
  | [], cur => if cur.isEmpty then [] else [String.mk cur.reverse]
  | c :: cs, cur =>
    if isWsChar c then
      if cur.isEmpty then tokenizeChars cs []
      else String.mk cur.reverse :: tokenizeChars cs []
    else tokenizeChars cs (c :: cur)

/-- JS `str.trim().split(/\s+/).filter((c) => c.length > 0)`: the whitespace
separated tokens of `s`, in order, with empty tokens dropped.  (On a trimmed
string, `split(/\s+/)` already produces no empty pieces, so this is also the
value of `str.trim().split(/\s+/)` whenever the trimmed string is nonempty.) -/
def tokenize (s : String) : List String := tokenizeChars s.data []

/-- JS `s.endsWith(c)` for a single-character suffix `c`. -/
def endsWithChar (s : String) (c : Char) : Bool := s.data.getLast? = some c

/-- JS `s.startsWith(p)`. -/
def strStartsWith (s p : String) : Bool := p.data.isPrefixOf s.data

/-- `cs` with leading and trailing whitespace removed (JS `String.prototype.trim`). -/
def trimChars (cs : List Char) : List Char :=
  ((cs.dropWhile isWsChar).reverse.dropWhile isWsChar).reverse

/-! ## Association lists: JS `Map` -/

/-- JS `Map.set`: replace the binding in place if the key is present
(keeping its insertion position), otherwise append it. -/
def alistSet {α : Type} : List (String × α) → String → α → List (String × α)
  | [], k, v => [(k, v)]
  | (k', v') :: rest, k, v =>
    if k' = k then (k, v) :: rest else (k', v') :: alistSet rest k v

/-- The original → rewritten class-name table (`classMap : Map<string,string>`). -/
abbrev ClassMap := List (String × String)

/-- `classMap.get(c) ?? c`: the rewrite step applied to one token. -/
def substTok (m : ClassMap) (c : String) : String := (m.lookup c).getD c

/-- JS `Set.add`: append if absent, keeping first-insertion order. -/
def setInsert (l : List String) (x : String) : List String :=
  if x ∈ l then l else l ++ [x]

/-- JS `array.join(' ')`. -/
def joinSpace : List String → String
  | [] => ""
  | [a] => a
  | a :: rest => a ++ " " ++ joinSpace rest

/-! ## NameGenerator -/

/-- The 52-letter alphabet `'etnris…QZ'` of the generator (the constant is
named `BASE54` in the source). -/
def BASE54 : List Char :=
  ['e','t','n','r','i','s','o','u','a','c','l','d','h',
   'm','p','g','f','b','w','y','v','k','x','j','q','z',
   'E','T','N','R','I','S','O','U','A','C','L','D','H',
   'M','P','G','F','B','W','Y','V','K','X','J','Q','Z']

/-- `frequency : Map<string, number>` of the generator. -/
abbrev FreqMap := List (Char × Nat)

/-- `reset()`: every alphabet character mapped to count 0. -/
def resetFreq : FreqMap := BASE54.map (fun c => (c, 0))

/-- One step of `recordUsage`: add 1 to the count of `ch` if it is a key of
the frequency map, otherwise ignore it (characters outside the alphabet,
such as digits and hyphens in class names, are not counted). -/
def bumpFreq : FreqMap → Char → FreqMap
  | [], _ => []
  | (c, n) :: rest, ch =>
    if c = ch then (c, n + 1) :: rest else (c, n) :: bumpFreq rest ch

/-- `recordUsage(str)` (the engine always uses the default weight 1). -/
def recordUsage (f : FreqMap) (s : String) : FreqMap := s.data.foldl bumpFreq f

/-- `frequency.get(c) ?? 0`. -/
def freqGet (f : FreqMap) (c : Char) : Nat := (f.lookup c).getD 0

/-- Stable insertion of `x` (which originally comes after every element of
the target list) into a list kept in descending `key` order: `x` goes in
front of the first element it strictly beats, so equal keys keep their
original relative order — the behaviour of JS stable `sort` with the
comparator `(a, b) => key(b) - key(a)`. -/
def insertDescBy {α : Type} (key : α → Nat) (x : α) : List α → List α
  | [] => [x]
  | y :: ys => if key y < key x then x :: y :: ys else y :: insertDescBy key x ys

/-- Stable sort, descending by `key`: the unique output of any stable sort
under the comparator `(a, b) => key(b) - key(a)`, hence a faithful model of
`Array.prototype.sort` as used by the source. -/
def sortDescBy {α : Type} (key : α → Nat) (l : List α) : List α :=
  l.foldl (fun acc x => insertDescBy key x acc) []

/-- `sortByFrequency()`: reorder the alphabet descending by accumulated
count (stable). -/
def sortByFrequency (f : FreqMap) : List Char := sortDescBy (freqGet f) BASE54

/-- Structural worker for `bijDigits`: the first argument is fuel, which
strictly dominates the shrinking counter (`n / base - 1 < n`), so
`bijDigitsGo base n n` runs the loop to completion. -/
def bijDigitsGo (base : Nat) : Nat → Nat → List Nat
  | 0, n => [n % base]
  | fuel + 1, n =>
    if n / base = 0 ∨ base ≤ 1 then [n % base]
    else bijDigitsGo base fuel (n / base - 1) ++ [n % base]

/-- The digit list produced by the `do … while` loop of `generate`:
bijective base-`base` numeration, most significant digit first.  Each
iteration prepends `chars[n % base]` and continues with `n / base - 1`
while that is still non-negative, i.e. while `n ≥ base`. -/
def bijDigits (base : Nat) (n : Nat) : List Nat := bijDigitsGo base n n

/-- `generate(index)`: decode the digits through the current alphabet. -/
def generate (chars : List Char) (n : Nat) : String :=
  String.mk ((bijDigits chars.length n).map (fun d => chars.getD d ' '))

/-! ## ClassMinifier state -/

/-- An `exclude` option entry: all the engine uses of a `RegExp` is
`pattern.test(className)`, modelled as an opaque Boolean test. -/
abbrev Pat := String → Bool

/-- The mutable fields of a `ClassMinifier` instance (the generator's
transient frequency map lives only inside `extractFromCSS` and is kept
local there). -/
structure MState where
  currentIndex : Nat
  classMap : ClassMap
  excludePatterns : List Pat
  genChars : List Char
  classUsageCount : List (String × Nat)
  dynamicPrefixes : List String

/-- The state of `new ClassMinifier({ exclude })`. -/
def initState (pats : List Pat) : MState :=
  { currentIndex := 0, classMap := [], excludePatterns := pats,
    genChars := BASE54, classUsageCount := [], dynamicPrefixes := [] }

/-- `isExcluded(className)`: some exclude pattern matches, or the name
starts with some recorded dynamic prefix. -/
def isExcluded (st : MState) (className : String) : Bool :=
  st.excludePatterns.any (fun p => p className) ||
  st.dynamicPrefixes.any (fun pre => strStartsWith className pre)

/-- `getNextName()`: starting from the cursor, generate names for
successive indices until one is not excluded; returns the name and the new
cursor.  The source loops forever (`for (;;)`); `fuel` bounds the search
and `none` models the documented non-termination hazard. -/
def getNextName (st : MState) (chars : List Char) : Nat → Nat → Option (String × Nat)
  | 0, _ => none
  | fuel + 1, idx =>
    let name := generate chars idx
    if isExcluded st name then getNextName st chars fuel (idx + 1)
    else some (name, idx + 1)

/-- The `for (const className of sortedClasses)` loop of `extractFromCSS`:
excluded classes are identity-mapped, the rest get the next generated name. -/
def assignLoop (st : MState) (chars : List Char) (fuel : Nat) :
    Nat → ClassMap → List String → Option (Nat × ClassMap)
  | idx, m, [] => some (idx, m)
  | idx, m, c :: rest =>
    if isExcluded st c then assignLoop st chars fuel idx (alistSet m c c) rest
    else
      match getNextName st chars fuel idx with
      | none => none
      | some (name, idx') => assignLoop st chars fuel idx' (alistSet m c name) rest

/-- `classUsageCount.get(k) ?? 0`. -/
def usageGet (u : List (String × Nat)) (k : String) : Nat := (u.lookup k).getD 0

/-- `extractFromCSS(css)`.  `classNodes` is the sequence of class-selector
component values visited by the postcss `walkRules`/`walkClasses`
traversal of the stylesheet text.  The source interleaves
`recordUsage(node.value)` and `cssClasses.add(node.value)` per visited
node; the two left folds below accumulate exactly the same frequency map
and the same insertion-ordered set.  Then the alphabet is sorted by
frequency, the distinct classes are stable-sorted descending by JS usage
count, and the mapping loop runs.  The allocation cursor
`st.currentIndex` is read from the incoming state — the source never
resets it. -/
def extractFromCSS (fuel : Nat) (st : MState) (classNodes : List String) :
    Option MState :=
  let freq := classNodes.foldl recordUsage resetFreq
  let chars := sortByFrequency freq
  let cssClasses := classNodes.foldl setInsert []
  let sortedClasses := sortDescBy (usageGet st.classUsageCount) cssClasses
  match assignLoop st chars fuel st.currentIndex st.classMap sortedClasses with
  | none => none
  | some (idx, m) =>
    some { st with currentIndex := idx, classMap := m, genChars := chars }

/-! ## transformCSS -/

/-- The `walkClasses` callback of `transformCSS`, applied to one
class-selector component: excluded components are skipped; otherwise the
component is replaced by its mapping when the lookup yields a truthy value
(in JS, `undefined` and the empty string are both falsy, hence both leave
the component unchanged). -/
def cssNodeTransform (st : MState) (v : String) : String :=
  if isExcluded st v then v
  else
    match st.classMap.lookup v with
    | none => v
    | some mv => if mv.isEmpty then v else mv

/-- `transformCSS`, restricted to what it does: every class-selector
component of the stylesheet is rewritten by `cssNodeTransform`; all other
stylesheet bytes are reprinted unchanged. -/
def transformCSS (st : MState) (classNodes : List String) : List String :=
  classNodes.map (cssNodeTransform st)

/-! ## analyzeJS -/

/-- The string-literal / template-literal nodes a Babel traversal yields to
`analyzeJS`.  A template's `chunks` are the cooked quasi texts in order; a
`null` cooked value is modelled as `""` (the source guards both with the
same falsiness test `if (cooked)`, under which they are indistinguishable). -/
inductive LitEvent
  | strLit (value : String)
  | tmplLit (chunks : List String)

/-- `countClasses(str)`: bump the usage count of every token of `str`. -/
def countClasses (usage : List (String × Nat)) (s : String) : List (String × Nat) :=
  (tokenize s).foldl (fun u t => alistSet u t (usageGet u t + 1)) usage

/-- `detectPrefixes(str)`: record every token of `str` ending in `-` or `:`
as a dynamic prefix. -/
def detectPrefixes (ps : List String) (s : String) : List String :=
  (tokenize s).foldl
    (fun acc t =>
      if endsWithChar t '-' || endsWithChar t ':' then setInsert acc t else acc)
    ps

/-- The template-literal visitor of `analyzeJS`: every nonempty chunk is
counted, and every chunk but the last (i.e. every chunk immediately
preceding an interpolation) also feeds `detectPrefixes`. -/
def analyzeTmpl (st : MState) : List String → MState
  | [] => st
  | [c] =>
    if c.isEmpty then st
    else { st with classUsageCount := countClasses st.classUsageCount c }
  | c :: rest =>
    let st' :=
      if c.isEmpty then st
      else
        { st with
          classUsageCount := countClasses st.classUsageCount c,
          dynamicPrefixes := detectPrefixes st.dynamicPrefixes c }
    analyzeTmpl st' rest

/-- One visited node of the `analyzeJS` traversal. -/
def analyzeEvent (st : MState) : LitEvent → MState
  | .strLit v => { st with classUsageCount := countClasses st.classUsageCount v }
  | .tmplLit chunks => analyzeTmpl st chunks

/-- The whole `analyzeJS` traversal over the parsed literal nodes. -/
def analyzeEvents (st : MState) (evs : List LitEvent) : MState :=
  evs.foldl analyzeEvent st

/-- The Babel `parse` call, external to this repository: a parser either
throws (`.error`) or yields the literal nodes of the program.  With
`errorRecovery: true` most syntax errors are recovered, but some inputs
still make `parse` throw — the integration's own `try/catch` around
`analyzeJS` ("some chunks may not be parseable") documents this. -/
abbrev ParseFn := String → Except Unit (List LitEvent)

/-- `analyzeJS(code)`: parse, then traverse.  There is no `try/catch` in
the method body, so a parser throw propagates to the caller. -/
def analyzeJS (pf : ParseFn) (st : MState) (code : String) : Except Unit MState :=
  match pf code with
  | .error e => .error e
  | .ok evs => .ok (analyzeEvents st evs)

/-- The analyze loop of the plugin's `generateBundle` hook: each chunk's
`analyzeJS` call is wrapped in `try { … } catch { /* some chunks may not
be parseable */ }`, so a throwing chunk leaves the state unchanged and the
loop continues. -/
def generateBundleAnalyze (pf : ParseFn) : MState → List String → MState
  | st, [] => st
  | st, c :: cs =>
    match analyzeJS pf st c with
    | .error _ => generateBundleAnalyze pf st cs
    | .ok st' => generateBundleAnalyze pf st' cs

/-! ## transformJS -/

/-- `isTransformable(str)`: the trimmed string is nonempty and splitting it
on whitespace yields at least one token that is a key of the class map. -/
def isTransformable (m : ClassMap) (s : String) : Bool :=
  let toks := tokenize s
  !toks.isEmpty && toks.any (fun c => (m.lookup c).isSome)

/-- `transformClassList(str, addLeadingSpace, addTrailingSpace)`: map every
token through the class map (unmapped tokens stay as they are), rejoin
with single spaces, and add the requested boundary spaces — except that no
trailing space is added after a trailing partial token (one ending in `-`
or `:`). -/
def transformClassList (m : ClassMap) (s : String)
    (addLeadingSpace addTrailingSpace : Bool) : String :=
  let leadingSpace := if addLeadingSpace then " " else ""
  let classes := tokenize s
  let endsWithPartialTok :=
    match classes.getLast? with
    | some lastClass => endsWithChar lastClass '-' || endsWithChar lastClass ':'
    | none => false
  let trailingSpace := if addTrailingSpace && !endsWithPartialTok then " " else ""
  leadingSpace ++ joinSpace (classes.map (substTok m)) ++ trailingSpace

/-- `checkPartialTransform(str)`: if the last token ends in `-` or `:` and
the (nonempty) list of tokens before it consists entirely of class-map
keys, answer `(true, lastToken)`; otherwise `(false, "")`. -/
def checkPartialTransform (m : ClassMap) (s : String) : Bool × String :=
  let parts := tokenize s
  match parts.getLast? with
  | none => (false, "")
  | some lastPart =>
    if endsWithChar lastPart '-' || endsWithChar lastPart ':' then
      let completeClasses := parts.dropLast
      if !completeClasses.isEmpty &&
          completeClasses.all (fun c => (m.lookup c).isSome) then
        (true, lastPart)
      else (false, "")
    else (false, "")

/-- `transformPartial(str, partialSuffix, preserveLeadingWhitespace)`
(renamed here): rewrite the complete tokens before the partial suffix and
reattach the suffix verbatim after a single space. -/
def transformPartialChunk (m : ClassMap) (s : String) (partialSuffix : String)
    (preserveLeadingWhitespace : Bool) : String :=
  let leadingSpace :=
    if preserveLeadingWhitespace && strStartsWith s " " then " " else ""
  let t := trimChars s.data
  let beforePartialTrim := trimChars (t.take (t.length - partialSuffix.length))
  let classes := tokenize (String.mk beforePartialTrim)
  let transformed := joinSpace (classes.map (substTok m))
  leadingSpace ++ transformed ++ " " ++ partialSuffix

/-- One character of `escapeTemplateRaw`.  The source runs three sequential
single-character `.replace` passes (`\` then backtick then `$`); because
the inserted backslashes are never re-examined by the later passes, this
equals a single character-wise pass. -/
def escTemplateChar (c : Char) : List Char :=
  if c = '\\' then ['\\', '\\']
  else if c = '\x60' then ['\\', '\x60']
  else if c = '$' then ['\\', '$'] else [c]

/-- `escapeTemplateRaw(str)`. -/
def escapeTemplateRaw (s : String) : String :=
  String.mk (s.data.flatMap escTemplateChar)

/-- One character of `escapeStringLiteral` for quote character `quote`. -/
def escStringChar (quote : Char) (c : Char) : List Char :=
  if c = '\\' then ['\\', '\\']
  else if (quote = '"' || quote = '\'') && c = quote then ['\\', c]
  else [c]

/-- `escapeStringLiteral(str, quote)`. -/
def escapeStringLiteral (s : String) (quote : Char) : String :=
  String.mk (s.data.flatMap (escStringChar quote))

/-- One ancestor on the Babel parent-path chain of a string literal, with
the only data `isInsideStyleProp` reads: whether the node is an
`ObjectProperty`, and the name of its key when the key is an `Identifier`
(`none` models a computed or non-identifier key). -/
inductive AncNode
  | objectProperty (keyIdent : Option String)
  | otherNode
deriving DecidableEq

/-- `isInsideStyleProp(path)`: walk the ancestor chain outward looking for
an `ObjectProperty` whose key is the identifier `style`. -/
def isInsideStyleProp : List AncNode → Bool
  | [] => false
  | .objectProperty (some keyName) :: rest =>
    if keyName = "style" then true else isInsideStyleProp rest
  | .objectProperty none :: rest => isInsideStyleProp rest
  | .otherNode :: rest => isInsideStyleProp rest

/-- A literal node visited by the `transformJS` traversal, carrying exactly
the AST data the visitor reads: the byte span `[start, stop)` of the node
in the original text, the decoded (cooked) value, and its context —
ancestors and `+`-concatenation sides for a string literal
(`isRightOfPlus` is `concat.before`, `isLeftOfPlus` is `concat.after`),
interpolation adjacency for a template chunk. -/
inductive LitNode
  | stringLit (start stop : Nat) (value : String) (ancestors : List AncNode)
      (isRightOfPlus isLeftOfPlus : Bool)
  | templateChunk (start stop : Nat) (cooked : Option String)
      (hasExprBefore hasExprAfter : Bool)
deriving DecidableEq

/-- The start of a literal's span. -/
def litStart : LitNode → Nat
  | .stringLit s _ _ _ _ _ => s
  | .templateChunk s _ _ _ _ => s

/-- The end of a literal's span. -/
def litStop : LitNode → Nat
  | .stringLit _ e _ _ _ _ => e
  | .templateChunk _ e _ _ _ => e

/-- The decoded text of a literal (for a template chunk, the cooked value,
with `null` as `""`). -/
def litText : LitNode → String
  | .stringLit _ _ v _ _ _ => v
  | .templateChunk _ _ ck _ _ => ck.getD ""

/-- A replacement of the byte range `[s, e)` by the given characters: one
`magicString.overwrite(s, e, text)` call. -/
abbrev Edit := Nat × Nat × List Char

/-- The visitor of `transformJS`, for a single literal node: the
`magicString.overwrite` edit it emits, if any.

* A string literal inside a `style` object property is skipped; a
  transformable one is overwritten with the rewritten class list, wrapped
  in its original quote character (read from the source text at the node's
  start) and escaped for that quote.
* A template chunk with a falsy cooked value is skipped; a transformable
  one is overwritten with the rewritten class list (escaped for a raw
  template position); otherwise, a chunk followed by an interpolation that
  passes `checkPartialTransform` is overwritten with the partial rewrite. -/
def editFor (m : ClassMap) (code : List Char) : LitNode → Option Edit
  | .stringLit s e v ancestors isRightOfPlus isLeftOfPlus =>
    if isInsideStyleProp ancestors then none
    else if isTransformable m v then
      let transformed := transformClassList m v isRightOfPlus isLeftOfPlus
      let quote := code.getD s ' '
      some (s, e, quote :: (escapeStringLiteral transformed quote).data ++ [quote])
    else none
  | .templateChunk s e cooked hasExprBefore hasExprAfter =>
    match cooked with
    | none => none
    | some ck =>
      if ck.isEmpty then none
      else if isTransformable m ck then
        some (s, e,
          (escapeTemplateRaw (transformClassList m ck hasExprBefore hasExprAfter)).data)
      else if hasExprAfter then
        match checkPartialTransform m ck with
        | (true, partialSuffix) =>
          some (s, e,
            (escapeTemplateRaw
              (transformPartialChunk m ck partialSuffix hasExprBefore)).data)
        | (false, _) => none
      else none

/-- `magicString.toString()`: splice the accumulated overwrites (which
arrive in source order, being emitted by an in-order AST traversal) into
the original text. -/
def applyEdits (code : List Char) : Nat → List Edit → List Char
  | pos, [] => code.drop pos
  | pos, (s, e, r) :: rest => (code.drop pos).take (s - pos) ++ r ++ applyEdits code e rest

/-- The edit list `transformJS` accumulates for a program. -/
def jsEdits (m : ClassMap) (code : List Char) (lits : List LitNode) : List Edit :=
  lits.filterMap (editFor m code)

/-- `transformJS(code)` on a parsed program: emit the edits of all visited
literal nodes into a `MagicString` seeded with the original text and
splice. -/
def transformJS (m : ClassMap) (code : List Char) (lits : List LitNode) : List Char :=
  applyEdits code 0 (jsEdits m code lits)

/-- Well-formedness of a parsed program's literal list, which a real Babel
traversal guarantees: the spans are ordered, non-overlapping and inside
the text. -/
def litsWF (len : Nat) : Nat → List LitNode → Bool
  | _, [] => true
  | pos, l :: rest =>
    decide (pos ≤ litStart l) && decide (litStart l ≤ litStop l) &&
    decide (litStop l ≤ len) && litsWF len (litStop l) rest

/-- The value represented by a digit string in bijective base-`base`
numeration, continuing from accumulator `a` (proof device for the
injectivity and monotonicity of `generate`). -/
def bijVal (base a : Nat) (ds : List Nat) : Nat :=
  ds.foldl (fun x d => (x + 1) * base + d) a

/-- Chained well-formedness of an edit list relative to a lower bound:
each span starts no earlier than `pos`, is well-oriented, and the next
span starts no earlier than this one ends. -/
def editsChain : Nat → List Edit → Prop
  | _, [] => True
  | pos, (s, e, _) :: rest => pos ≤ s ∧ s ≤ e ∧ editsChain e rest

/-! ## Association-list and set lemmas -/

theorem lookup_alistSet {α : Type} (m : List (String × α)) (k k' : String) (v : α) :
    (alistSet m k v).lookup k' = if k' = k then some v else m.lookup k' := by
  induction m with
  | nil =>
    by_cases h : k' = k
    · simp [alistSet, List.lookup, h]
    · have hb : (k' == k) = false := by simpa using h
      simp [alistSet, List.lookup, hb, h]
  | cons hd tl ih =>
    obtain ⟨hk, hv⟩ := hd
    by_cases h1 : hk = k
    · subst h1
      by_cases h2 : k' = hk
      · simp [alistSet, List.lookup, h2]
      · have hb : (k' == hk) = false := by simpa using h2
        simp [alistSet, List.lookup, hb, h2]
    · by_cases h2 : k' = hk
      · subst h2
        simp [alistSet, if_neg h1, List.lookup, h1]
      · have hb : (k' == hk) = false := by simpa using h2
        simp [alistSet, if_neg h1, List.lookup, hb, ih]

theorem mem_setInsert {l : List String} {x y : String} :
    y ∈ setInsert l x ↔ y ∈ l ∨ y = x := by
  unfold setInsert
  by_cases h : x ∈ l
  · simp only [if_pos h]
    constructor
    · exact fun hy => Or.inl hy
    · rintro (hy | rfl) <;> [exact hy; exact h]
  · simp [if_neg h]

theorem nodup_setInsert {l : List String} (h : l.Nodup) (x : String) :
    (setInsert l x).Nodup := by
  unfold setInsert
  by_cases hx : x ∈ l
  · simpa [hx]
  · simp only [if_neg hx]
    refine List.Nodup.append h (List.nodup_singleton x) ?_
    intro a ha hax
    rcases List.mem_singleton.mp hax with rfl
    exact hx ha

theorem mem_foldl_setInsert {l : List String} :
    ∀ {init : List String} {y : String},
      y ∈ l.foldl setInsert init ↔ y ∈ init ∨ y ∈ l := by
  induction l with
  | nil => simp
  | cons c cs ih =>
    intro init y
    simp only [List.foldl_cons, ih, mem_setInsert]
    constructor
    · rintro ((hy | rfl) | hy)
      · exact Or.inl hy
      · exact Or.inr (List.mem_cons_self _ _)
      · exact Or.inr (List.mem_cons_of_mem _ hy)
    · rintro (hy | hy)
      · exact Or.inl (Or.inl hy)
      · rcases List.mem_cons.mp hy with rfl | hy
        · exact Or.inl (Or.inr rfl)
        · exact Or.inr hy

theorem nodup_foldl_setInsert {l : List String} :
    ∀ {init : List String}, init.Nodup → (l.foldl setInsert init).Nodup := by
  induction l with
  | nil => intro init h; simpa
  | cons c cs ih =>
    intro init h
    exact ih (nodup_setInsert h c)

/-! ## Stable-sort lemmas -/

theorem insertDescBy_perm {α : Type} (key : α → Nat) (x : α) (l : List α) :
    (insertDescBy key x l).Perm (x :: l) := by
  induction l with
  | nil => simp [insertDescBy]
  | cons y ys ih =>
    simp only [insertDescBy]
    by_cases h : key y < key x
    · simp [h]
    · simp only [if_neg h]
      exact (List.Perm.cons y ih).trans (List.Perm.swap x y ys)

theorem sortDescBy_perm {α : Type} (key : α → Nat) (l : List α) :
    (sortDescBy key l).Perm l := by
  suffices h : ∀ acc : List α,
      (l.foldl (fun acc x => insertDescBy key x acc) acc).Perm (l ++ acc) by
    simpa using h []
  induction l with
  | nil => intro acc; simp
  | cons c cs ih =>
    intro acc
    simp only [List.foldl_cons, List.cons_append]
    refine (ih _).trans ?_
    refine (List.Perm.append_left cs (insertDescBy_perm key c acc)).trans ?_
    exact List.perm_middle

theorem insertDescBy_pairwise {α : Type} (key : α → Nat) (x : α) (l : List α)
    (h : l.Pairwise (fun a b => key b ≤ key a)) :
    (insertDescBy key x l).Pairwise (fun a b => key b ≤ key a) := by
  induction l with
  | nil => simp [insertDescBy]
  | cons y ys ih =>
    simp only [insertDescBy]
    rcases List.pairwise_cons.mp h with ⟨hy, hys⟩
    by_cases hxy : key y < key x
    · rw [if_pos hxy]
      refine List.pairwise_cons.mpr ⟨?_, h⟩
      intro b hb
      rcases List.mem_cons.mp hb with rfl | hb
      · omega
      · have := hy b hb; omega
    · rw [if_neg hxy]
      refine List.pairwise_cons.mpr ⟨?_, ih hys⟩
      intro b hb
      have hb' := (insertDescBy_perm key x ys).mem_iff.mp hb
      rcases List.mem_cons.mp hb' with rfl | hb'
      · omega
      · exact hy b hb'

theorem sortDescBy_pairwise {α : Type} (key : α → Nat) (l : List α) :
    (sortDescBy key l).Pairwise (fun a b => key b ≤ key a) := by
  suffices h : ∀ acc : List α, acc.Pairwise (fun a b => key b ≤ key a) →
      (l.foldl (fun acc x => insertDescBy key x acc) acc).Pairwise
        (fun a b => key b ≤ key a) by
    exact h [] (List.Pairwise.nil)
  induction l with
  | nil => intro acc hacc; simpa
  | cons c cs ih =>
    intro acc hacc
    exact ih _ (insertDescBy_pairwise key c acc hacc)

/-- Two distinct members of a list occur in it in one order or the other. -/
theorem pair_sublist_of_mem {α : Type} {l : List α} {a b : α}
    (ha : a ∈ l) (hb : b ∈ l) (hne : a ≠ b) :
    [a, b].Sublist l ∨ [b, a].Sublist l := by
  induction l with
  | nil => cases ha
  | cons c cs ih =>
    rcases List.mem_cons.mp ha with rfl | ha'
    · have hb' : b ∈ cs := by
        rcases List.mem_cons.mp hb with rfl | hb'
        · exact absurd rfl hne
        · exact hb'
      exact Or.inl (List.cons_sublist_cons.mpr (List.singleton_sublist.mpr hb'))
    · rcases List.mem_cons.mp hb with rfl | hb'
      · exact Or.inr (List.cons_sublist_cons.mpr (List.singleton_sublist.mpr ha'))
      · rcases ih ha' hb' with h | h
        · exact Or.inl (h.trans (List.sublist_cons_self c cs))
        · exact Or.inr (h.trans (List.sublist_cons_self c cs))

theorem pairwise_rel_of_pair_sublist {α : Type} {R : α → α → Prop} {l : List α}
    {a b : α} (hp : l.Pairwise R) (hs : [a, b].Sublist l) : R a b := by
  have := hp.sublist hs
  rcases List.pairwise_cons.mp this with ⟨h, _⟩
  exact h b (List.mem_cons_self b [])

/-! ## Generator lemmas -/

theorem bijDigits_rec_bound {base n : Nat} (h : ¬(n / base = 0 ∨ base ≤ 1)) :
    2 ≤ base ∧ base ≤ n ∧ n / base - 1 < n := by
  push_neg at h
  obtain ⟨h1, h2⟩ := h
  have hb : 2 ≤ base := by omega
  have hn : base ≤ n := by
    by_contra hlt
    exact h1 (Nat.div_eq_of_lt (by omega))
  have : n / base < n := Nat.div_lt_self (by omega) hb
  exact ⟨hb, hn, by omega⟩

theorem bijDigitsGo_fuel_irrel (base : Nat) :
    ∀ fuel₁ fuel₂ n, n ≤ fuel₁ → n ≤ fuel₂ →
      bijDigitsGo base fuel₁ n = bijDigitsGo base fuel₂ n := by
  intro fuel₁
  induction fuel₁ with
  | zero =>
    intro fuel₂ n h1 h2
    have hn : n = 0 := by omega
    subst hn
    cases fuel₂ with
    | zero => rfl
    | succ f2 =>
      simp only [bijDigitsGo]
      rw [if_pos (Or.inl (Nat.zero_div base))]
  | succ fuel ih =>
    intro fuel₂ n h1 h2
    cases fuel₂ with
    | zero =>
      have hn : n = 0 := by omega
      subst hn
      simp only [bijDigitsGo]
      rw [if_pos (Or.inl (Nat.zero_div base))]
    | succ f2 =>
      simp only [bijDigitsGo]
      by_cases h : n / base = 0 ∨ base ≤ 1
      · rw [if_pos h, if_pos h]
      · rw [if_neg h, if_neg h]
        obtain ⟨hb, hn, hlt⟩ := bijDigits_rec_bound h
        rw [ih f2 (n / base - 1) (by omega) (by omega)]

theorem bijDigits_unfold (base n : Nat) :
    bijDigits base n = if n / base = 0 ∨ base ≤ 1 then [n % base]
      else bijDigits base (n / base - 1) ++ [n % base] := by
  cases n with
  | zero =>
    show bijDigitsGo base 0 0 = _
    rw [if_pos (Or.inl (Nat.zero_div base))]
    rfl
  | succ k =>
    show bijDigitsGo base (k + 1) (k + 1) = _
    simp only [bijDigitsGo]
    by_cases h : (k + 1) / base = 0 ∨ base ≤ 1
    · rw [if_pos h, if_pos h]
    · rw [if_neg h, if_neg h]
      obtain ⟨hb, hn, hlt⟩ := bijDigits_rec_bound h
      have : bijDigitsGo base k ((k + 1) / base - 1)
          = bijDigitsGo base ((k + 1) / base - 1) ((k + 1) / base - 1) :=
        bijDigitsGo_fuel_irrel base k ((k + 1) / base - 1) ((k + 1) / base - 1)
          (by omega) (Nat.le_refl _)
      rw [this]
      rfl

theorem bijDigits_len_pos (base n : Nat) : 0 < (bijDigits base n).length := by
  rw [bijDigits_unfold]
  split <;> simp

theorem bijDigits_lt (base : Nat) (hb : 2 ≤ base) :
    ∀ n, ∀ d ∈ bijDigits base n, d < base := by
  intro n
  induction n using Nat.strong_induction_on with
  | _ n ih =>
    intro d hd
    rw [bijDigits_unfold] at hd
    split at hd
    · rcases List.mem_singleton.mp hd with rfl
      exact Nat.mod_lt _ (by omega)
    · rename_i h
      obtain ⟨_, _, hlt⟩ := bijDigits_rec_bound h
      rcases List.mem_append.mp hd with hd' | hd'
      · exact ih _ hlt d hd'
      · rcases List.mem_singleton.mp hd' with rfl
        exact Nat.mod_lt _ (by omega)

theorem bijVal_append_one (base a d : Nat) (ds : List Nat) :
    bijVal base a (ds ++ [d]) = (bijVal base a ds + 1) * base + d := by
  simp [bijVal]

theorem bijVal_bijDigits (base : Nat) (hb : 2 ≤ base) :
    ∀ n a, bijVal base a (bijDigits base n) =
      (a + 1) * base ^ (bijDigits base n).length + n := by
  intro n
  induction n using Nat.strong_induction_on with
  | _ n ih =>
    intro a
    by_cases h : n / base = 0 ∨ base ≤ 1
    · have hn : n < base := by
        have h1 := Nat.div_add_mod n base
        have h2 : n % base < base := Nat.mod_lt _ (by omega)
        rcases h with h | h
        · rw [h, Nat.mul_zero, Nat.zero_add] at h1
          omega
        · omega
      rw [bijDigits_unfold, if_pos h]
      simp [bijVal, Nat.mod_eq_of_lt hn]
    · obtain ⟨hb2, hbn, hlt⟩ := bijDigits_rec_bound h
      conv_lhs => rw [bijDigits_unfold]
      conv_rhs => rw [bijDigits_unfold]
      rw [if_neg h, bijVal_append_one, ih _ hlt a]
      have hdiv : 1 ≤ n / base := (Nat.one_le_div_iff (by omega)).mpr hbn
      have h1 : n / base - 1 + 1 = n / base := by omega
      have hmod := Nat.div_add_mod n base
      simp only [List.length_append, List.length_cons, List.length_nil]
      calc ((a + 1) * base ^ (bijDigits base (n / base - 1)).length
              + (n / base - 1) + 1) * base + n % base
          = ((a + 1) * base ^ (bijDigits base (n / base - 1)).length
              + n / base) * base + n % base := by
            rw [Nat.add_assoc, h1]
        _ = (a + 1) * base ^ ((bijDigits base (n / base - 1)).length + 1)
              + (base * (n / base) + n % base) := by ring
        _ = (a + 1) * base ^ ((bijDigits base (n / base - 1)).length + 1) + n := by
            rw [hmod]

theorem bijDigits_inj (base : Nat) (hb : 2 ≤ base) {n m : Nat}
    (h : bijDigits base n = bijDigits base m) : n = m := by
  have h1 := bijVal_bijDigits base hb n 0
  have h2 := bijVal_bijDigits base hb m 0
  rw [h] at h1
  have := h1.symm.trans h2
  exact Nat.add_left_cancel this

theorem bijDigits_length_mono (base : Nat) (hb : 2 ≤ base) :
    ∀ m n, n ≤ m → (bijDigits base n).length ≤ (bijDigits base m).length := by
  intro m
  induction m using Nat.strong_induction_on with
  | _ m ih =>
    intro n hnm
    by_cases hm : m / base = 0 ∨ base ≤ 1
    · have hmb : m < base := by
        have h1 := Nat.div_add_mod m base
        have h2 : m % base < base := Nat.mod_lt _ (by omega)
        rcases hm with h | h
        · rw [h, Nat.mul_zero, Nat.zero_add] at h1
          omega
        · omega
      have hn0 : n / base = 0 := Nat.div_eq_of_lt (by omega)
      conv_lhs => rw [bijDigits_unfold]
      conv_rhs => rw [bijDigits_unfold]
      rw [if_pos hm, if_pos (Or.inl hn0)]
      simp
    · obtain ⟨_, hbm, hlt⟩ := bijDigits_rec_bound hm
      conv_rhs => rw [bijDigits_unfold]
      rw [if_neg hm]
      by_cases hn : n / base = 0 ∨ base ≤ 1
      · conv_lhs => rw [bijDigits_unfold]
        rw [if_pos hn]
        simp
      · obtain ⟨_, hbn, hltn⟩ := bijDigits_rec_bound hn
        conv_lhs => rw [bijDigits_unfold]
        rw [if_neg hn]
        simp only [List.length_append, List.length_cons, List.length_nil]
        have hdivle : n / base - 1 ≤ m / base - 1 := by
          have := Nat.div_le_div_right (c := base) hnm
          omega
        have := ih (m / base - 1) hlt (n / base - 1) hdivle
        omega

theorem generate_length (chars : List Char) (n : Nat) :
    (generate chars n).length = (bijDigits chars.length n).length := by
  show ((bijDigits chars.length n).map _).length = _
  exact List.length_map _ _

theorem map_getD_inj {chars : List Char} (hnd : chars.Nodup) :
    ∀ l1 l2 : List Nat, (∀ d ∈ l1, d < chars.length) →
      (∀ d ∈ l2, d < chars.length) →
      l1.map (fun d => chars.getD d ' ') = l2.map (fun d => chars.getD d ' ') →
      l1 = l2 := by
  intro l1
  induction l1 with
  | nil =>
    intro l2 _ _ h
    cases l2 with
    | nil => rfl
    | cons e es => simp at h
  | cons d ds ih =>
    intro l2 h1 h2 h
    cases l2 with
    | nil => simp at h
    | cons e es =>
      simp only [List.map_cons, List.cons.injEq] at h
      obtain ⟨hde, hrest⟩ := h
      have hd : d < chars.length := h1 d (List.mem_cons_self _ _)
      have he : e < chars.length := h2 e (List.mem_cons_self _ _)
      have hget : chars.get ⟨d, hd⟩ = chars.get ⟨e, he⟩ := by
        rw [List.getD_eq_getElem?_getD, List.getD_eq_getElem?_getD,
            List.getElem?_eq_getElem hd, List.getElem?_eq_getElem he] at hde
        simpa [List.get_eq_getElem] using hde
      have hfin : (⟨d, hd⟩ : Fin chars.length) = ⟨e, he⟩ :=
        (List.Nodup.get_inj_iff hnd).mp hget
      have hde2 : d = e := congrArg Fin.val hfin
      subst hde2
      rw [ih es (fun x hx => h1 x (List.mem_cons_of_mem _ hx))
        (fun x hx => h2 x (List.mem_cons_of_mem _ hx)) hrest]

theorem generate_inj (chars : List Char) (hnd : chars.Nodup)
    (hlen : 2 ≤ chars.length) {i j : Nat}
    (h : generate chars i = generate chars j) : i = j := by
  apply bijDigits_inj chars.length hlen
  have hmap := congrArg String.data h
  simp only [generate] at hmap
  exact map_getD_inj hnd _ _ (bijDigits_lt chars.length hlen i)
    (bijDigits_lt chars.length hlen j) hmap

theorem generate_length_mono (chars : List Char) (hlen : 2 ≤ chars.length)
    {i j : Nat} (hij : i ≤ j) :
    (generate chars i).length ≤ (generate chars j).length := by
  rw [generate_length, generate_length]
  exact bijDigits_length_mono _ hlen j i hij

/-! ## Alphabet facts -/

theorem BASE54_nodup : BASE54.Nodup := by decide

theorem BASE54_length : BASE54.length = 52 := by decide

theorem sortByFrequency_perm (f : FreqMap) : (sortByFrequency f).Perm BASE54 :=
  sortDescBy_perm _ _

theorem sortByFrequency_nodup (f : FreqMap) : (sortByFrequency f).Nodup :=
  ((sortByFrequency_perm f).nodup_iff).mpr BASE54_nodup

theorem sortByFrequency_length (f : FreqMap) : (sortByFrequency f).length = 52 :=
  ((sortByFrequency_perm f).length_eq).trans BASE54_length

/-! ## Allocation lemmas -/

theorem getNextName_spec (st : MState) (chars : List Char) :
    ∀ fuel idx name idx', getNextName st chars fuel idx = some (name, idx') →
      ∃ i, idx ≤ i ∧ idx' = i + 1 ∧ name = generate chars i ∧
        isExcluded st name = false := by
  intro fuel
  induction fuel with
  | zero => intro idx name idx' h; simp [getNextName] at h
  | succ fuel ih =>
    intro idx name idx' h
    simp only [getNextName] at h
    by_cases hex : isExcluded st (generate chars idx) = true
    · rw [if_pos hex] at h
      obtain ⟨i, hi1, hi2, hi3, hi4⟩ := ih _ _ _ h
      exact ⟨i, by omega, hi2, hi3, hi4⟩
    · rw [if_neg hex] at h
      simp only [Option.some.injEq, Prod.mk.injEq] at h
      obtain ⟨h1, h2⟩ := h
      refine ⟨idx, Nat.le_refl _, h2.symm, h1.symm, ?_⟩
      rw [← h1]
      simpa using hex

theorem assignLoop_spec (st : MState) (chars : List Char) (fuel : Nat) :
    ∀ cs idx0 m0 idxF mF, cs.Nodup →
      assignLoop st chars fuel idx0 m0 cs = some (idxF, mF) →
      idx0 ≤ idxF ∧
      (∀ k, k ∉ cs → mF.lookup k = m0.lookup k) ∧
      (∀ k, k ∈ cs →
        (isExcluded st k = true → mF.lookup k = some k) ∧
        (isExcluded st k = false →
          ∃ i, idx0 ≤ i ∧ i < idxF ∧ mF.lookup k = some (generate chars i))) := by
  intro cs
  induction cs with
  | nil =>
    intro idx0 m0 idxF mF _ h
    simp only [assignLoop, Option.some.injEq, Prod.mk.injEq] at h
    obtain ⟨h1, h2⟩ := h
    subst h1; subst h2
    exact ⟨Nat.le_refl _, fun k _ => rfl, fun k hk => absurd hk (List.not_mem_nil k)⟩
  | cons c rest ih =>
    intro idx0 m0 idxF mF hnd h
    obtain ⟨hc, hndr⟩ := List.nodup_cons.mp hnd
    simp only [assignLoop] at h
    by_cases hex : isExcluded st c = true
    · rw [if_pos hex] at h
      obtain ⟨hle, hout, hin⟩ := ih idx0 (alistSet m0 c c) idxF mF hndr h
      refine ⟨hle, ?_, ?_⟩
      · intro k hk
        have hk1 : k ∉ rest := fun hh => hk (List.mem_cons_of_mem _ hh)
        have hk2 : k ≠ c := fun hh => hk (hh ▸ List.mem_cons_self _ _)
        rw [hout k hk1, lookup_alistSet, if_neg hk2]
      · intro k hkmem
        rcases List.mem_cons.mp hkmem with rfl | hk
        · refine ⟨fun _ => ?_, fun hex2 => absurd hex2 (by simp [hex])⟩
          rw [hout k hc, lookup_alistSet, if_pos rfl]
        · exact hin k hk
    · rw [if_neg hex] at h
      cases hgn : getNextName st chars fuel idx0 with
      | none => rw [hgn] at h; simp at h
      | some p =>
        obtain ⟨name, idx1⟩ := p
        rw [hgn] at h
        obtain ⟨i, hi0, hi1, hi2, hi3⟩ := getNextName_spec st chars fuel idx0 name idx1 hgn
        obtain ⟨hle, hout, hin⟩ := ih idx1 (alistSet m0 c name) idxF mF hndr h
        refine ⟨by omega, ?_, ?_⟩
        · intro k hk
          have hk1 : k ∉ rest := fun hh => hk (List.mem_cons_of_mem _ hh)
          have hk2 : k ≠ c := fun hh => hk (hh ▸ List.mem_cons_self _ _)
          rw [hout k hk1, lookup_alistSet, if_neg hk2]
        · intro k hkmem
          rcases List.mem_cons.mp hkmem with rfl | hk
          · refine ⟨fun hex2 => absurd hex2 (by simpa using hex), fun _ => ?_⟩
            refine ⟨i, hi0, by omega, ?_⟩
            rw [hout k hc, lookup_alistSet, if_pos rfl, hi2]
          · obtain ⟨he1, he2⟩ := hin k hk
            refine ⟨he1, fun hf => ?_⟩
            obtain ⟨j, hj0, hj1, hj2⟩ := he2 hf
            exact ⟨j, by omega, hj1, hj2⟩

theorem assignLoop_order (st : MState) (chars : List Char) (fuel : Nat) :
    ∀ cs idx0 m0 idxF mF a b, cs.Nodup →
      [a, b].Sublist cs →
      isExcluded st a = false → isExcluded st b = false →
      assignLoop st chars fuel idx0 m0 cs = some (idxF, mF) →
      ∃ ia ib, mF.lookup a = some (generate chars ia) ∧
        mF.lookup b = some (generate chars ib) ∧ ia < ib := by
  intro cs
  induction cs with
  | nil =>
    intro idx0 m0 idxF mF a b _ hsub _ _ _
    simp at hsub
  | cons c rest ih =>
    intro idx0 m0 idxF mF a b hnd hsub ha hb h
    obtain ⟨hc, hndr⟩ := List.nodup_cons.mp hnd
    cases hsub with
    | cons =>
      rename_i hsub'
      simp only [assignLoop] at h
      by_cases hex : isExcluded st c = true
      · rw [if_pos hex] at h
        exact ih _ _ _ _ a b hndr hsub' ha hb h
      · rw [if_neg hex] at h
        cases hgn : getNextName st chars fuel idx0 with
        | none => rw [hgn] at h; simp at h
        | some p =>
          obtain ⟨name, idx1⟩ := p
          rw [hgn] at h
          exact ih _ _ _ _ a b hndr hsub' ha hb h
    | cons₂ =>
      rename_i hsub'
      have hbmem : b ∈ rest := List.singleton_sublist.mp hsub'
      simp only [assignLoop] at h
      rw [if_neg (by simp [ha])] at h
      cases hgn : getNextName st chars fuel idx0 with
      | none => rw [hgn] at h; simp at h
      | some p =>
        obtain ⟨name, idx1⟩ := p
        rw [hgn] at h
        obtain ⟨i, hi0, hi1, hi2, hi3⟩ :=
          getNextName_spec st chars fuel idx0 name idx1 hgn
        obtain ⟨hle, hout, hin⟩ := assignLoop_spec st chars fuel rest idx1 _ idxF mF hndr h
        obtain ⟨_, hbspec⟩ := hin b hbmem
        obtain ⟨j, hj0, hj1, hj2⟩ := hbspec hb
        refine ⟨i, j, ?_, hj2, by omega⟩
        rw [hout c hc, lookup_alistSet, if_pos rfl, hi2]

/-! ## Edit-splice lemmas -/

theorem editsChain_mono {pos' pos : Nat} {edits : List Edit} (h : pos' ≤ pos)
    (hc : editsChain pos edits) : editsChain pos' edits := by
  cases edits with
  | nil => trivial
  | cons ed rest =>
    obtain ⟨s, e, r⟩ := ed
    obtain ⟨h1, h2, h3⟩ := hc
    exact ⟨by omega, h2, h3⟩

theorem drop_decompose (code : List Char) {pos a : Nat} (h : pos ≤ a) :
    code.drop pos = (code.drop pos).take (a - pos) ++ code.drop a := by
  conv_lhs => rw [← List.take_append_drop (a - pos) (code.drop pos)]
  rw [List.drop_drop]
  congr 2
  omega

theorem take_decompose (code : List Char) {pos a b s : Nat}
    (hpa : pos ≤ a) (hab : a ≤ b) (hbs : b ≤ s) :
    (code.drop pos).take (s - pos) =
      (code.drop pos).take (a - pos) ++
        ((code.drop a).take (b - a) ++ (code.drop b).take (s - b)) := by
  have e1 : (code.drop pos).drop (a - pos) = code.drop a := by
    rw [List.drop_drop]; congr 1; omega
  have e2 : (code.drop a).drop (b - a) = code.drop b := by
    rw [List.drop_drop]; congr 1; omega
  have h1 : s - pos = (a - pos) + ((b - a) + (s - b)) := by omega
  rw [h1, List.take_add, e1, List.take_add, e2]

theorem applyEdits_gap (code : List Char) :
    ∀ (edits : List Edit) (pos a b : Nat), editsChain pos edits → pos ≤ a → a ≤ b →
      (∀ ed ∈ edits, ed.2.1 ≤ a ∨ b ≤ ed.1) →
      ∃ u w, applyEdits code pos edits = u ++ (code.drop a).take (b - a) ++ w := by
  intro edits
  induction edits with
  | nil =>
    intro pos a b _ hpa hab _
    refine ⟨(code.drop pos).take (a - pos), code.drop b, ?_⟩
    show code.drop pos = _
    conv_lhs => rw [drop_decompose code hpa, drop_decompose code hab]
    rw [List.append_assoc]
  | cons ed rest ih =>
    obtain ⟨s, e, r⟩ := ed
    intro pos a b hchain hpa hab hdisj
    obtain ⟨hps, hse, hchain'⟩ := hchain
    rcases hdisj (s, e, r) (List.mem_cons_self _ _) with hea | hbs
    · obtain ⟨u, w, hrec⟩ := ih e a b hchain' hea hab
        (fun ed' hed' => hdisj ed' (List.mem_cons_of_mem _ hed'))
      exact ⟨(code.drop pos).take (s - pos) ++ r ++ u, w, by
        show (code.drop pos).take (s - pos) ++ r ++ applyEdits code e rest = _
        rw [hrec]
        simp [List.append_assoc]⟩
    · refine ⟨(code.drop pos).take (a - pos),
        (code.drop b).take (s - b) ++ r ++ applyEdits code e rest, ?_⟩
      show (code.drop pos).take (s - pos) ++ r ++ applyEdits code e rest = _
      rw [take_decompose code hpa hab hbs]
      simp [List.append_assoc]

theorem applyEdits_mem_repl (code : List Char) :
    ∀ (edits : List Edit) (pos s e : Nat) (r : List Char), (s, e, r) ∈ edits →
      ∃ u w, applyEdits code pos edits = u ++ r ++ w := by
  intro edits
  induction edits with
  | nil => intro pos s e r h; cases h
  | cons ed rest ih =>
    obtain ⟨s0, e0, r0⟩ := ed
    intro pos s e r h
    rcases List.mem_cons.mp h with heq | hmem
    · rcases heq with ⟨rfl, rfl⟩
      exact ⟨(code.drop pos).take (s0 - pos), applyEdits code e0 rest, rfl⟩
    · obtain ⟨u, w, hrec⟩ := ih e0 s e r hmem
      refine ⟨(code.drop pos).take (s0 - pos) ++ r0 ++ u, w, ?_⟩
      show (code.drop pos).take (s0 - pos) ++ r0 ++ applyEdits code e0 rest = _
      rw [hrec]
      simp [List.append_assoc]

/-! ## transformJS structural lemmas -/

theorem editFor_span (m : ClassMap) (code : List Char) (l : LitNode)
    (s e : Nat) (r : List Char) (h : editFor m code l = some (s, e, r)) :
    s = litStart l ∧ e = litStop l := by
  cases l with
  | stringLit s0 e0 v anc cr cl =>
    simp only [editFor] at h
    by_cases h1 : isInsideStyleProp anc = true
    · rw [if_pos h1] at h; simp at h
    · rw [if_neg h1] at h
      by_cases h2 : isTransformable m v = true
      · rw [if_pos h2] at h
        simp only [Option.some.injEq, Prod.mk.injEq] at h
        exact ⟨h.1.symm, h.2.1.symm⟩
      · rw [if_neg h2] at h; simp at h
  | templateChunk s0 e0 cooked hb ha =>
    cases cooked with
    | none => simp [editFor] at h
    | some ck =>
      simp only [editFor] at h
      by_cases h1 : ck.isEmpty = true
      · rw [if_pos h1] at h; simp at h
      · rw [if_neg h1] at h
        by_cases h2 : isTransformable m ck = true
        · rw [if_pos h2] at h
          simp only [Option.some.injEq, Prod.mk.injEq] at h
          exact ⟨h.1.symm, h.2.1.symm⟩
        · rw [if_neg h2] at h
          by_cases h3 : ha = true
          · rw [if_pos h3] at h
            cases hcp : checkPartialTransform m ck with
            | mk canT suff =>
              rw [hcp] at h
              cases canT with
              | true =>
                simp only [Option.some.injEq, Prod.mk.injEq] at h
                exact ⟨h.1.symm, h.2.1.symm⟩
              | false => simp at h
          · rw [if_neg h3] at h; simp at h

theorem litsWF_cons {len pos : Nat} {l : LitNode} {rest : List LitNode}
    (h : litsWF len pos (l :: rest) = true) :
    pos ≤ litStart l ∧ litStart l ≤ litStop l ∧ litStop l ≤ len ∧
      litsWF len (litStop l) rest = true := by
  simp only [litsWF, Bool.and_eq_true, decide_eq_true_eq] at h
  exact ⟨h.1.1.1, h.1.1.2, h.1.2, h.2⟩

theorem litsWF_start_le {len : Nat} :
    ∀ {lits : List LitNode} {pos : Nat} {l : LitNode},
      litsWF len pos lits = true → l ∈ lits →
      pos ≤ litStart l ∧ litStart l ≤ litStop l ∧ litStop l ≤ len := by
  intro lits
  induction lits with
  | nil => intro pos l _ hl; cases hl
  | cons hd rest ih =>
    intro pos l hwf hl
    obtain ⟨h1, h2, h3, h4⟩ := litsWF_cons hwf
    rcases List.mem_cons.mp hl with rfl | hl'
    · exact ⟨h1, h2, h3⟩
    · obtain ⟨g1, g2, g3⟩ := ih h4 hl'
      exact ⟨by omega, g2, g3⟩

theorem jsEdits_bounds {m : ClassMap} {code : List Char} {len : Nat}
    {lits : List LitNode} {pos : Nat} (hwf : litsWF len pos lits = true)
    {ed : Edit} (hed : ed ∈ jsEdits m code lits) :
    pos ≤ ed.1 ∧ ed.1 ≤ ed.2.1 ∧ ed.2.1 ≤ len := by
  obtain ⟨l, hl, heq⟩ := List.mem_filterMap.mp hed
  obtain ⟨s, e, r⟩ := ed
  obtain ⟨hs, he⟩ := editFor_span m code l s e r heq
  subst hs; subst he
  obtain ⟨g1, g2, g3⟩ := litsWF_start_le hwf hl
  exact ⟨g1, g2, g3⟩

theorem jsEdits_chain (m : ClassMap) (code : List Char) {len : Nat} :
    ∀ (lits : List LitNode) (pos : Nat), litsWF len pos lits = true →
      editsChain pos (jsEdits m code lits) := by
  intro lits
  induction lits with
  | nil => intro pos _; simp only [jsEdits, List.filterMap_nil]; trivial
  | cons hd rest ih =>
    intro pos hwf
    obtain ⟨h1, h2, _, h4⟩ := litsWF_cons hwf
    show editsChain pos (List.filterMap _ (hd :: rest))
    rw [List.filterMap_cons]
    cases hef : editFor m code hd with
    | none =>
      exact editsChain_mono (by omega) (ih (litStop hd) h4)
    | some ed =>
      obtain ⟨s, e, r⟩ := ed
      obtain ⟨hs, he⟩ := editFor_span m code hd s e r hef
      subst hs; subst he
      exact ⟨h1, h2, ih (litStop hd) h4⟩

theorem jsEdits_disjoint_of_none (m : ClassMap) (code : List Char) {len : Nat} :
    ∀ (lits : List LitNode) (pos : Nat) (l : LitNode),
      litsWF len pos lits = true → l ∈ lits → editFor m code l = none →
      ∀ ed ∈ jsEdits m code lits, ed.2.1 ≤ litStart l ∨ litStop l ≤ ed.1 := by
  intro lits
  induction lits with
  | nil => intro pos l _ hl _ ed hed; cases hl
  | cons hd rest ih =>
    intro pos l hwf hl hnone ed hed
    obtain ⟨h1, h2, h3, h4⟩ := litsWF_cons hwf
    show ed.2.1 ≤ litStart l ∨ litStop l ≤ ed.1
    unfold jsEdits at hed
    rw [List.filterMap_cons] at hed
    cases hef : editFor m code hd with
    | none =>
      rw [hef] at hed
      rcases List.mem_cons.mp hl with rfl | hl'
      · exact Or.inr (jsEdits_bounds h4 hed).1
      · exact ih (litStop hd) l h4 hl' hnone ed hed
    | some ed0 =>
      rw [hef] at hed
      rcases List.mem_cons.mp hed with rfl | hed'
      · rcases List.mem_cons.mp hl with rfl | hl'
        · rw [hnone] at hef; cases hef
        · obtain ⟨s, e, r⟩ := ed
          obtain ⟨hs, he⟩ := editFor_span m code hd s e r hef
          subst hs; subst he
          left
          have hstart := (litsWF_start_le h4 hl').1
          exact hstart
      · rcases List.mem_cons.mp hl with rfl | hl'
        · exact Or.inr (jsEdits_bounds h4 hed').1
        · exact ih (litStop hd) l h4 hl' hnone ed hed'

/-! ## Classification lemmas -/

theorem isTransformable_false_of_no_key {m : ClassMap} {s : String}
    (h : ∀ t ∈ tokenize s, (m.lookup t).isSome = false) :
    isTransformable m s = false := by
  have hany : (tokenize s).any (fun c => (m.lookup c).isSome) = false :=
    List.any_eq_false.mpr (by intro x hx; simp [h x hx])
  simp [isTransformable, hany]

theorem isTransformable_iff {m : ClassMap} {s : String} :
    isTransformable m s = true ↔ ∃ t ∈ tokenize s, (m.lookup t).isSome = true := by
  simp only [isTransformable, Bool.and_eq_true, List.any_eq_true]
  constructor
  · rintro ⟨_, t, ht, hs⟩
    exact ⟨t, ht, hs⟩
  · rintro ⟨t, ht, hs⟩
    refine ⟨?_, t, ht, hs⟩
    cases htok : tokenize s with
    | nil => rw [htok] at ht; cases ht
    | cons a as => simp [htok]

theorem checkPartialTransform_fst_false {m : ClassMap} {s : String}
    (h : ∀ t ∈ tokenize s, (m.lookup t).isSome = false) :
    (checkPartialTransform m s).1 = false := by
  unfold checkPartialTransform
  dsimp only
  cases hl : (tokenize s).getLast? with
  | none => rfl
  | some lastPart =>
    dsimp only
    by_cases hend : (endsWithChar lastPart '-' || endsWithChar lastPart ':') = true
    · rw [if_pos hend]
      by_cases hcc : (!(tokenize s).dropLast.isEmpty &&
          (tokenize s).dropLast.all fun c => (m.lookup c).isSome) = true
      · exfalso
        rw [Bool.and_eq_true] at hcc
        obtain ⟨hne, hall⟩ := hcc
        cases hdl : (tokenize s).dropLast with
        | nil => rw [hdl] at hne; simp at hne
        | cons x xs =>
          have hx : x ∈ (tokenize s).dropLast := by
            rw [hdl]; exact List.mem_cons_self _ _
          have hx2 : x ∈ tokenize s := (List.dropLast_sublist _).subset hx
          have h1 := h x hx2
          have h2 := List.all_eq_true.mp hall x hx
          rw [h1] at h2
          cases h2
      · rw [if_neg hcc]
    · rw [if_neg hend]

theorem editFor_none_of_no_key {m : ClassMap} {code : List Char} {l : LitNode}
    (h : ∀ t ∈ tokenize (litText l), (m.lookup t).isSome = false) :
    editFor m code l = none := by
  cases l with
  | stringLit s e v anc cr cl =>
    have hv : isTransformable m v = false :=
      isTransformable_false_of_no_key (by simpa [litText] using h)
    simp [editFor, hv]
  | templateChunk s e cooked hb ha =>
    cases cooked with
    | none => simp [editFor]
    | some ck =>
      have hv : isTransformable m ck = false :=
        isTransformable_false_of_no_key (by simpa [litText] using h)
      have hcp : (checkPartialTransform m ck).1 = false :=
        checkPartialTransform_fst_false (by simpa [litText] using h)
      simp only [editFor, hv]
      by_cases he : ck.isEmpty = true
      · rw [if_pos he]
      · rw [if_neg he, if_neg (by simp)]
        by_cases hh : ha = true
        · rw [if_pos hh]
          cases hcpeq : checkPartialTransform m ck with
          | mk canT suff =>
            rw [hcpeq] at hcp
            simp only at hcp
            subst hcp
            rfl
        · rw [if_neg hh]

/-! ## Frame lemmas for transformJS -/

theorem transformJS_id_of_no_edits {m : ClassMap} {code : List Char}
    {lits : List LitNode} (h : jsEdits m code lits = []) :
    transformJS m code lits = code := by
  unfold transformJS
  rw [h]
  rfl

theorem transformJS_preserves_skipped {m : ClassMap} {code : List Char}
    {lits : List LitNode} {l : LitNode} (hwf : litsWF code.length 0 lits = true)
    (hl : l ∈ lits) (hnone : editFor m code l = none) :
    ∃ u w, transformJS m code lits =
      u ++ (code.drop (litStart l)).take (litStop l - litStart l) ++ w := by
  have hchain := jsEdits_chain m code lits 0 hwf
  have hdisj := jsEdits_disjoint_of_none m code lits 0 l hwf hl hnone
  obtain ⟨g1, g2, g3⟩ := litsWF_start_le hwf hl
  exact applyEdits_gap code _ 0 _ _ hchain (by omega) g2 hdisj

theorem transformJS_contains_repl {m : ClassMap} {code : List Char}
    {lits : List LitNode} {l : LitNode} {s e : Nat} {r : List Char}
    (hl : l ∈ lits) (hsome : editFor m code l = some (s, e, r)) :
    ∃ u w, transformJS m code lits = u ++ r ++ w := by
  have hmem : (s, e, r) ∈ jsEdits m code lits :=
    List.mem_filterMap.mpr ⟨l, hl, hsome⟩
  exact applyEdits_mem_repl code _ 0 s e r hmem

/-! ## extractFromCSS structural lemmas -/

theorem extractFromCSS_spec {fuel : Nat} {st : MState} {classNodes : List String}
    {st' : MState} (h : extractFromCSS fuel st classNodes = some st') :
    ∃ idxF mF,
      assignLoop st (sortByFrequency (classNodes.foldl recordUsage resetFreq)) fuel
        st.currentIndex st.classMap
        (sortDescBy (usageGet st.classUsageCount) (classNodes.foldl setInsert []))
        = some (idxF, mF) ∧
      st' = { st with currentIndex := idxF, classMap := mF, genChars := sortByFrequency (classNodes.foldl recordUsage resetFreq) } := by
  unfold extractFromCSS at h
  dsimp only at h
  cases hal : assignLoop st (sortByFrequency (classNodes.foldl recordUsage resetFreq)) fuel
      st.currentIndex st.classMap
      (sortDescBy (usageGet st.classUsageCount) (classNodes.foldl setInsert [])) with
  | none => rw [hal] at h; cases h
  | some p =>
    obtain ⟨idxF, mF⟩ := p
    rw [hal] at h
    simp only [Option.some.injEq] at h
    exact ⟨idxF, mF, rfl, h.symm⟩

theorem isExcluded_update (st : MState) (i : Nat) (m : ClassMap) (g : List Char)
    (c : String) :
    isExcluded { st with currentIndex := i, classMap := m, genChars := g } c
      = isExcluded st c := rfl

theorem sortedClasses_nodup (st : MState) (classNodes : List String) :
    (sortDescBy (usageGet st.classUsageCount) (classNodes.foldl setInsert [])).Nodup :=
  (List.Perm.nodup_iff (sortDescBy_perm _ _)).mpr
    (nodup_foldl_setInsert List.nodup_nil)

theorem mem_sortedClasses (st : MState) (classNodes : List String) {t : String} :
    t ∈ sortDescBy (usageGet st.classUsageCount) (classNodes.foldl setInsert []) ↔
      t ∈ classNodes := by
  rw [(sortDescBy_perm _ _).mem_iff, mem_foldl_setInsert]
  simp

/-! ## Claim theorems -/

/-- C1: a class-list string qualifies for rewriting in `transformJS` iff
splitting it on whitespace yields at least one token that is a key of the
ClassMap; in a qualifying string every mapped token is replaced by its
ClassMap value and every unmapped token is preserved verbatim (the tokens
are rejoined with single spaces); a string with zero matching tokens
produces no edit and is left untouched. -/
theorem transformable_iff_some_token_mapped (m : ClassMap) (s : String) :
    (isTransformable m s = true ↔ ∃ t ∈ tokenize s, (m.lookup t).isSome = true) ∧
    (transformClassList m s false false =
      joinSpace ((tokenize s).map (substTok m))) ∧
    ((∀ t ∈ tokenize s, (m.lookup t).isSome = false) →
      ∀ (code : List Char) (st en : Nat) (anc : List AncNode) (cr cl : Bool),
        editFor m code (.stringLit st en s anc cr cl) = none) := by
  refine ⟨isTransformable_iff, ?_, ?_⟩
  · unfold transformClassList
    dsimp only
    simp
  · intro h code st en anc cr cl
    exact editFor_none_of_no_key (l := .stringLit st en s anc cr cl)
      (by simpa [litText] using h)

/-- Witness for C1 at the spec's mixed known/unknown example. -/
theorem transformable_iff_some_token_mapped_witness :
    isTransformable [("flex", "a"), ("items-center", "b")]
      "flex items-center custom-animation" = true ∧
    transformClassList [("flex", "a"), ("items-center", "b")]
      "flex items-center custom-animation" false false = "a b custom-animation" := by
  constructor
  · exact (transformable_iff_some_token_mapped _ _).1.mpr ⟨"flex", by decide, by decide⟩
  · rw [(transformable_iff_some_token_mapped [("flex", "a"), ("items-center", "b")]
      "flex items-center custom-animation").2.1]
    decide

/-- C10: a class-selector component whose name is not a key of the ClassMap
is left unchanged by `transformCSS` (the lookup miss is handled by
passthrough), and a stylesheet all of whose class components are unmapped
passes through with every component unchanged; the function is total by
construction. -/
theorem transformCSS_passthrough_on_unmapped (st : MState) :
    (∀ v, st.classMap.lookup v = none → cssNodeTransform st v = v) ∧
    (∀ classNodes : List String,
      (∀ x ∈ classNodes, st.classMap.lookup x = none) →
      transformCSS st classNodes = classNodes) := by
  have hnode : ∀ v, st.classMap.lookup v = none → cssNodeTransform st v = v := by
    intro v h
    unfold cssNodeTransform
    by_cases hex : isExcluded st v = true
    · rw [if_pos hex]
    · rw [if_neg hex, h]
  refine ⟨hnode, ?_⟩
  intro ns hns
  unfold transformCSS
  conv_rhs => rw [← List.map_id ns]
  exact List.map_congr_left (fun x hx => hnode x (hns x hx))

/-- Witness for C10 at a concrete unmapped selector component. -/
theorem transformCSS_passthrough_on_unmapped_witness :
    cssNodeTransform (initState []) "never-seen" = "never-seen" ∧
    transformCSS (initState []) ["never-seen", "also-unseen"]
      = ["never-seen", "also-unseen"] := by
  have h := transformCSS_passthrough_on_unmapped (initState [])
  exact ⟨h.1 "never-seen" rfl, h.2 ["never-seen", "also-unseen"] (fun x _ => rfl)⟩

/-- C8: `isExcluded(token)` returns true iff some ExcludeRule pattern
matches the token or the token starts with some recorded DynamicPrefix;
consequently every class token starting with a recorded DynamicPrefix that
occurs in the stylesheet is identity-mapped by `extractFromCSS` and never
renamed. -/
theorem isExcluded_iff_pattern_or_prefix (st : MState) (t : String) :
    (isExcluded st t = true ↔
      (∃ p ∈ st.excludePatterns, p t = true) ∨
      (∃ pre ∈ st.dynamicPrefixes, strStartsWith t pre = true)) ∧
    (∀ (fuel : Nat) (classNodes : List String) (st' : MState) (pre : String),
      extractFromCSS fuel st classNodes = some st' →
      pre ∈ st.dynamicPrefixes → strStartsWith t pre = true → t ∈ classNodes →
      st'.classMap.lookup t = some t) := by
  constructor
  · simp [isExcluded, List.any_eq_true]
  · intro fuel classNodes st' pre hx hpre hsw hmem
    obtain ⟨idxF, mF, hal, hst⟩ := extractFromCSS_spec hx
    have hexc : isExcluded st t = true := by
      unfold isExcluded
      rw [Bool.or_eq_true]
      exact Or.inr (List.any_eq_true.mpr ⟨pre, hpre, hsw⟩)
    have hnd := sortedClasses_nodup st classNodes
    have hmem2 := (mem_sortedClasses st classNodes).mpr hmem
    obtain ⟨_, _, hin⟩ := assignLoop_spec st _ fuel _ _ _ idxF mF hnd hal
    have hlook := (hin t hmem2).1 hexc
    rw [hst]
    exact hlook

/-- Witness for C8: `fi-` recorded as a DynamicPrefix by an `analyzeJS`
traversal of `` `fi fi-${x}` `` makes `fi-home` excluded, and extraction
identity-maps it. -/
theorem isExcluded_iff_pattern_or_prefix_witness :
    isExcluded (analyzeEvents (initState []) [.tmplLit ["fi fi-", "x"]]) "fi-home"
      = true ∧
    (extractFromCSS 10 (analyzeEvents (initState []) [.tmplLit ["fi fi-", "x"]])
      ["fi-home"]).map (fun s => s.classMap.lookup "fi-home")
      = some (some "fi-home") := by
  have h := isExcluded_iff_pattern_or_prefix
    (analyzeEvents (initState []) [.tmplLit ["fi fi-", "x"]]) "fi-home"
  refine ⟨h.1.mpr (Or.inr ⟨"fi-", by decide, by decide⟩), ?_⟩
  cases hx : extractFromCSS 10 (analyzeEvents (initState []) [.tmplLit ["fi fi-", "x"]])
      ["fi-home"] with
  | none =>
    have hs : (extractFromCSS 10
        (analyzeEvents (initState []) [.tmplLit ["fi fi-", "x"]])
        ["fi-home"]).isSome = true := by decide
    rw [hx] at hs
    cases hs
  | some stX =>
    have hl := h.2 10 ["fi-home"] stX "fi-" hx (by decide) (by decide) (by decide)
    simp [hl]

/-- C9 counterexample: the engine's `analyzeJS` method contains no
`try/catch`; when the (external) parser throws, `analyzeJS` itself
propagates the failure instead of returning normally. -/
theorem analyzeJS_raises_cex :
    analyzeJS (fun _ => .error ()) (initState []) "let x = 1" = .error () := rfl

/-- C9 (amended): parse failures are swallowed by `analyzeJS`'s caller, the
plugin's `generateBundle` loop: `analyzeJS` propagates the parse error, the
loop catches it, the failing chunk contributes nothing (the state is
unchanged), and the run continues with the remaining chunks. -/
theorem bundle_analyze_swallows_parse_error (pf : ParseFn) (st : MState)
    (c : String) (cs : List String) (err : Unit) (hpf : pf c = .error err) :
    analyzeJS pf st c = .error err ∧
    generateBundleAnalyze pf st (c :: cs) = generateBundleAnalyze pf st cs := by
  have h1 : analyzeJS pf st c = .error err := by
    unfold analyzeJS
    rw [hpf]
  refine ⟨h1, ?_⟩
  show (match analyzeJS pf st c with
    | .error _ => generateBundleAnalyze pf st cs
    | .ok st' => generateBundleAnalyze pf st' cs) = _
  rw [h1]

/-- Witness for C9's amended statement at a concrete always-failing parse. -/
theorem bundle_analyze_swallows_parse_error_witness :
    analyzeJS (fun _ => .error ()) (initState []) "\x7d" = .error () ∧
    generateBundleAnalyze (fun _ => .error ()) (initState []) ["\x7d"]
      = initState [] := by
  have h := bundle_analyze_swallows_parse_error (fun _ => .error ())
    (initState []) "\x7d" [] () rfl
  exact ⟨h.1, h.2⟩

/-- C3: `transformJS` only replaces the byte ranges of literals it alters:
a program none of whose literal tokens is a ClassMap key is returned
byte-identical; every emitted edit covers exactly the span of a visited
literal the visitor decided to rewrite; a literal for which the visitor
emits no edit has its original bytes preserved verbatim in the output; and
the replacement of a rewritten string literal starts and ends with the
original quote character read from the source text. -/
theorem transformJS_frame (m : ClassMap) (code : List Char) (lits : List LitNode)
    (hwf : litsWF code.length 0 lits = true) :
    ((∀ l ∈ lits, ∀ t ∈ tokenize (litText l), (m.lookup t).isSome = false) →
      transformJS m code lits = code) ∧
    (∀ ed ∈ jsEdits m code lits, ∃ l ∈ lits,
      editFor m code l = some ed ∧ ed.1 = litStart l ∧ ed.2.1 = litStop l) ∧
    (∀ l ∈ lits, editFor m code l = none →
      ∃ u w, transformJS m code lits =
        u ++ (code.drop (litStart l)).take (litStop l - litStart l) ++ w) ∧
    (∀ (s e : Nat) (v : String) (anc : List AncNode) (cr cl : Bool) (ed : Edit),
      editFor m code (.stringLit s e v anc cr cl) = some ed →
      ed.2.2.head? = some (code.getD s ' ') ∧
      ed.2.2.getLast? = some (code.getD s ' ')) := by
  refine ⟨?_, ?_, ?_, ?_⟩
  · intro h
    apply transformJS_id_of_no_edits
    exact List.filterMap_eq_nil.mpr (fun l hl => editFor_none_of_no_key (h l hl))
  · intro ed hed
    obtain ⟨l, hl, heq⟩ := List.mem_filterMap.mp hed
    obtain ⟨s, e, r⟩ := ed
    obtain ⟨hs, he⟩ := editFor_span m code l s e r heq
    exact ⟨l, hl, heq, hs, he⟩
  · intro l hl hnone
    exact transformJS_preserves_skipped hwf hl hnone
  · intro s e v anc cr cl ed hsome
    simp only [editFor] at hsome
    by_cases h1 : isInsideStyleProp anc = true
    · rw [if_pos h1] at hsome; cases hsome
    · rw [if_neg h1] at hsome
      by_cases h2 : isTransformable m v = true
      · rw [if_pos h2] at hsome
        have hed : ed = (s, e, (code.getD s ' ') ::
            (escapeStringLiteral (transformClassList m v cr cl) (code.getD s ' ')).data
            ++ [code.getD s ' ']) := (Option.some.inj hsome).symm
        subst hed
        constructor
        · rfl
        · exact List.getLast?_concat ((code.getD s ' ') ::
            (escapeStringLiteral (transformClassList m v cr cl)
              (code.getD s ' ')).data)
      · rw [if_neg h2] at hsome; cases hsome

/-- Witness for C3 at a concrete program with no mapped token. -/
theorem transformJS_frame_witness :
    transformJS [("flex", "a")] ("x = \x22https://e.co/flex\x22".data)
      [.stringLit 4 22 "https://e.co/flex" [] false false]
      = "x = \x22https://e.co/flex\x22".data := by
  have h := transformJS_frame [("flex", "a")] ("x = \x22https://e.co/flex\x22".data)
    [.stringLit 4 22 "https://e.co/flex" [] false false] (by decide)
  exact h.1 (by decide)

/-- C4: a string literal that is (transitively) the value of an object
property whose key identifier is `style` is never rewritten by
`transformJS` — it produces no edit and its source bytes survive verbatim
— while a sibling string literal not under a `style` key whose value is
transformable is rewritten to its mapped class list. -/
theorem transformJS_style_value_immunity (m : ClassMap) (code : List Char)
    (lits : List LitNode) (hwf : litsWF code.length 0 lits = true) :
    (∀ l ∈ lits, ∀ (s e : Nat) (v : String) (anc : List AncNode) (cr cl : Bool),
      l = .stringLit s e v anc cr cl → isInsideStyleProp anc = true →
      editFor m code l = none ∧
      ∃ u w, transformJS m code lits = u ++ (code.drop s).take (e - s) ++ w) ∧
    (∀ l ∈ lits, ∀ (s e : Nat) (v : String) (anc : List AncNode) (cr cl : Bool),
      l = .stringLit s e v anc cr cl → isInsideStyleProp anc = false →
      isTransformable m v = true →
      ∃ u w, transformJS m code lits = u ++ ((code.getD s ' ') ::
        (escapeStringLiteral (transformClassList m v cr cl) (code.getD s ' ')).data
        ++ [code.getD s ' ']) ++ w) := by
  constructor
  · intro l hl s e v anc cr cl hform hstyle
    subst hform
    have hnone : editFor m code (.stringLit s e v anc cr cl) = none := by
      simp [editFor, hstyle]
    exact ⟨hnone, transformJS_preserves_skipped hwf hl hnone⟩
  · intro l hl s e v anc cr cl hform hstyle htr
    subst hform
    have hsome : editFor m code (.stringLit s e v anc cr cl) = some (s, e,
        (code.getD s ' ') :: (escapeStringLiteral (transformClassList m v cr cl)
          (code.getD s ' ')).data ++ [code.getD s ' ']) := by
      simp [editFor, hstyle, htr]
    exact transformJS_contains_repl hl hsome

/-- Witness for C4 at the spec's style/className example, compressed to
`["a","a"]` with the first literal under a `style` key: the style value is
untouched and the sibling is rewritten to `"b"`. -/
theorem transformJS_style_value_immunity_witness :
    (editFor [("a", "b")] ("[\x22a\x22,\x22a\x22]".data)
      (.stringLit 1 4 "a" [.objectProperty (some "style")] false false) = none) ∧
    (∃ u w, transformJS [("a", "b")] ("[\x22a\x22,\x22a\x22]".data)
      [.stringLit 1 4 "a" [.objectProperty (some "style")] false false,
       .stringLit 5 8 "a" [] false false] = u ++ "\x22b\x22".data ++ w) := by
  have h := transformJS_style_value_immunity [("a", "b")] ("[\x22a\x22,\x22a\x22]".data)
    [.stringLit 1 4 "a" [.objectProperty (some "style")] false false,
     .stringLit 5 8 "a" [] false false] (by decide)
  constructor
  · exact (h.1 _ (List.mem_cons_self _ _) 1 4 "a"
      [.objectProperty (some "style")] false false rfl (by decide)).1
  · obtain ⟨u, w, hw⟩ := h.2 _ (List.mem_cons_of_mem _ (List.mem_cons_self _ _))
      5 8 "a" [] false false rfl (by decide) (by decide)
    refine ⟨u, w, ?_⟩
    rw [hw]
    have hrepl : (("[\x22a\x22,\x22a\x22]".data).getD 5 ' ') ::
        (escapeStringLiteral (transformClassList [("a", "b")] "a" false false)
          (("[\x22a\x22,\x22a\x22]".data).getD 5 ' ')).data
        ++ [("[\x22a\x22,\x22a\x22]".data).getD 5 ' '] = "\x22b\x22".data := by decide
    rw [hrepl]

theorem joinSpace_append_singleton (l : List String) (x : String) (h : l ≠ []) :
    joinSpace (l ++ [x]) = joinSpace l ++ " " ++ x := by
  induction l with
  | nil => exact absurd rfl h
  | cons a rest ih =>
    cases rest with
    | nil => rfl
    | cons b bs =>
      show a ++ " " ++ joinSpace ((b :: bs) ++ [x])
        = (a ++ " " ++ joinSpace (b :: bs)) ++ " " ++ x
      rw [ih (by simp), ← String.append_assoc, ← String.append_assoc]

/-- C5 counterexample: a template chunk `fi fi-` before an interpolation,
with every complete token (`fi`) a ClassMap key, does not in general
preserve the trailing partial token: when `fi-` is itself a ClassMap key
(mapped to `z`), the chunk is fully transformable, the suffix is looked up
like any other token, and the emitted text is `fi z` — the suffix is
rewritten, not preserved verbatim. -/
theorem partialSuffixRewrittenCex :
    editFor [("fi", "fi"), ("fi-", "z")] ("x".data)
      (.templateChunk 0 6 (some "fi fi-") false true)
      = some (0, 6, "fi z".data) ∧
    ("fi z".data ≠ "fi fi-".data) := ⟨by decide, by decide⟩

/-- C5 (amended): for a template chunk immediately preceding an
interpolation whose trailing token ends in `-` or `:`, if every token
before that trailing token is a key of the ClassMap — and the ClassMap
does not send the trailing partial token itself to a different name —
then `transformJS` rewrites the complete tokens and preserves the partial
suffix token verbatim, separated by a single space. -/
theorem partialSuffixPreserved (m : ClassMap) (s suffix : String)
    (cs : List String) (htok : tokenize s = cs ++ [suffix]) (hcs : cs ≠ [])
    (hkeys : ∀ c ∈ cs, (m.lookup c).isSome = true)
    (hend : endsWithChar suffix '-' = true ∨ endsWithChar suffix ':' = true)
    (hsuf : substTok m suffix = suffix)
    (st en : Nat) (hb : Bool) (code : List Char) :
    editFor m code (.templateChunk st en (some s) hb true) =
      some (st, en, (escapeTemplateRaw ((if hb then " " else "") ++
        joinSpace (cs.map (substTok m)) ++ " " ++ suffix)).data) := by
  have hsne : s.isEmpty = false := by
    by_contra hh
    have hse : s = "" := (String.isEmpty_iff s).mp (by
      cases hie : s.isEmpty
      · exact absurd hie hh
      · rfl)
    rw [hse] at htok
    have : cs ++ [suffix] = [] := htok.symm
    simpa using this
  have htr : isTransformable m s = true := by
    apply isTransformable_iff.mpr
    obtain ⟨c, hc⟩ := List.exists_mem_of_ne_nil cs hcs
    exact ⟨c, htok ▸ List.mem_append_left _ hc, hkeys c hc⟩
  have htcl : transformClassList m s hb true =
      (if hb then " " else "") ++ joinSpace (cs.map (substTok m)) ++ " " ++ suffix := by
    have hpart : (endsWithChar suffix '-' || endsWithChar suffix ':') = true := by
      rcases hend with hh | hh <;> simp [hh]
    have hmap : (cs ++ [suffix]).map (substTok m)
        = cs.map (substTok m) ++ [suffix] := by
      rw [List.map_append]
      simp [hsuf]
    unfold transformClassList
    dsimp only
    rw [htok, List.getLast?_concat]
    dsimp only
    simp only [hpart, Bool.not_true, Bool.and_false, Bool.false_eq_true, if_false]
    rw [hmap, joinSpace_append_singleton _ _ (by
      intro hh
      exact hcs (List.map_eq_nil.mp hh))]
    simp [String.append_assoc]
  simp only [editFor, hsne, Bool.false_eq_true, if_false, htr, if_true, htcl]

/-- Witness for C5 at the spec's `fi fi-` example (with `fi` and `fi-home`
excluded and identity-mapped): the chunk text is emitted as the literal
`fi fi-`, unchanged. -/
theorem partialSuffixPreservedWitness :
    editFor [("fi", "fi"), ("fi-home", "fi-home")] ("x".data)
      (.templateChunk 0 6 (some "fi fi-") false true) = some (0, 6, "fi fi-".data) := by
  have h := partialSuffixPreserved [("fi", "fi"), ("fi-home", "fi-home")]
    "fi fi-" "fi-" ["fi"] (by decide) (by decide)
    (by intro c hc; rcases List.mem_singleton.mp hc with rfl; decide)
    (Or.inl (by decide)) (by decide) 0 6 false ("x".data)
  rw [h]
  decide

/-- C6: after a run's single `extractFromCSS` (the class map starts empty),
the ClassMap is injective on non-excluded entries: distinct non-excluded
tokens that are keys of the mapping have distinct values — the allocator
never reissues an index, and `generate` is injective. -/
theorem classMap_injective_on_nonexcluded (fuel : Nat) (st st' : MState)
    (classNodes : List String) (hmap0 : st.classMap = [])
    (hx : extractFromCSS fuel st classNodes = some st')
    (a b : String) (hne : a ≠ b)
    (ha : isExcluded st a = false) (hb : isExcluded st b = false)
    (va vb : String) (hva : st'.classMap.lookup a = some va)
    (hvb : st'.classMap.lookup b = some vb) : va ≠ vb := by
  obtain ⟨idxF, mF, hal, hst⟩ := extractFromCSS_spec hx
  subst hst
  have hva' : mF.lookup a = some va := hva
  have hvb' : mF.lookup b = some vb := hvb
  have hndc : (sortByFrequency (classNodes.foldl recordUsage resetFreq)).Nodup :=
    sortByFrequency_nodup _
  have hlen : 2 ≤ (sortByFrequency (classNodes.foldl recordUsage resetFreq)).length := by
    rw [sortByFrequency_length]
    omega
  have hnd := sortedClasses_nodup st classNodes
  obtain ⟨hle, hout, hin⟩ := assignLoop_spec st
    (sortByFrequency (classNodes.foldl recordUsage resetFreq)) fuel
    (sortDescBy (usageGet st.classUsageCount) (classNodes.foldl setInsert []))
    st.currentIndex st.classMap idxF mF hnd hal
  have hamem : a ∈ sortDescBy (usageGet st.classUsageCount)
      (classNodes.foldl setInsert []) := by
    by_contra hc
    rw [hout a hc, hmap0] at hva'
    cases hva'
  have hbmem : b ∈ sortDescBy (usageGet st.classUsageCount)
      (classNodes.foldl setInsert []) := by
    by_contra hc
    rw [hout b hc, hmap0] at hvb'
    cases hvb'
  rcases pair_sublist_of_mem hamem hbmem hne with hsub | hsub
  · obtain ⟨ia, ib, hA, hB, hlt⟩ := assignLoop_order st _ fuel _
      st.currentIndex st.classMap idxF mF a b hnd hsub ha hb hal
    have hva2 : va = generate _ ia := Option.some.inj (hva'.symm.trans hA)
    have hvb2 : vb = generate _ ib := Option.some.inj (hvb'.symm.trans hB)
    intro heq
    rw [hva2, hvb2] at heq
    have := generate_inj _ hndc hlen heq
    omega
  · obtain ⟨ib, ia, hB, hA, hlt⟩ := assignLoop_order st _ fuel _
      st.currentIndex st.classMap idxF mF b a hnd hsub hb ha hal
    have hva2 : va = generate _ ia := Option.some.inj (hva'.symm.trans hA)
    have hvb2 : vb = generate _ ib := Option.some.inj (hvb'.symm.trans hB)
    intro heq
    rw [hva2, hvb2] at heq
    have := generate_inj _ hndc hlen heq
    omega

/-- Witness for C6: extracting `.flex` and `.block` maps them to the
distinct names `l` and `e`. -/
theorem classMap_injective_on_nonexcluded_witness :
    (extractFromCSS 10 (initState []) ["flex", "block"]).map
      (fun s => (s.classMap.lookup "flex", s.classMap.lookup "block"))
      = some (some "l", some "e") ∧ ("l" : String) ≠ "e" := by
  refine ⟨by decide, ?_⟩
  exact classMap_injective_on_nonexcluded 10 (initState [])
    ((extractFromCSS 10 (initState []) ["flex", "block"]).get (by decide))
    ["flex", "block"] rfl (Option.some_get (by decide)).symm
    "flex" "block" (by decide) rfl rfl "l" "e" (by decide) (by decide)

/-- C7: within one extraction from a fresh map, if token `a` has a strictly
higher UsageIndex count than token `b` and neither is excluded, then `a`'s
rewritten name is no longer than `b`'s: the stable sort puts `a` before
`b`, allocation indices increase along the sorted order, and the
generator's output length is non-decreasing in the index. -/
theorem higher_usage_shorter_name (fuel : Nat) (st st' : MState)
    (classNodes : List String) (hmap0 : st.classMap = [])
    (hx : extractFromCSS fuel st classNodes = some st')
    (a b : String)
    (hcount : usageGet st.classUsageCount b < usageGet st.classUsageCount a)
    (ha : isExcluded st a = false) (hb : isExcluded st b = false)
    (va vb : String) (hva : st'.classMap.lookup a = some va)
    (hvb : st'.classMap.lookup b = some vb) : va.length ≤ vb.length := by
  obtain ⟨idxF, mF, hal, hst⟩ := extractFromCSS_spec hx
  subst hst
  have hva' : mF.lookup a = some va := hva
  have hvb' : mF.lookup b = some vb := hvb
  have hlen : 2 ≤ (sortByFrequency (classNodes.foldl recordUsage resetFreq)).length := by
    rw [sortByFrequency_length]
    omega
  have hnd := sortedClasses_nodup st classNodes
  have hne : a ≠ b := by
    intro hh
    rw [hh] at hcount
    omega
  obtain ⟨hle, hout, hin⟩ := assignLoop_spec st
    (sortByFrequency (classNodes.foldl recordUsage resetFreq)) fuel
    (sortDescBy (usageGet st.classUsageCount) (classNodes.foldl setInsert []))
    st.currentIndex st.classMap idxF mF hnd hal
  have hamem : a ∈ sortDescBy (usageGet st.classUsageCount)
      (classNodes.foldl setInsert []) := by
    by_contra hc
    rw [hout a hc, hmap0] at hva'
    cases hva'
  have hbmem : b ∈ sortDescBy (usageGet st.classUsageCount)
      (classNodes.foldl setInsert []) := by
    by_contra hc
    rw [hout b hc, hmap0] at hvb'
    cases hvb'
  have hpw := sortDescBy_pairwise (usageGet st.classUsageCount)
    (classNodes.foldl setInsert [])
  rcases pair_sublist_of_mem hamem hbmem hne with hsub | hsub
  · obtain ⟨ia, ib, hA, hB, hlt⟩ := assignLoop_order st _ fuel _
      st.currentIndex st.classMap idxF mF a b hnd hsub ha hb hal
    have hva2 : va = generate _ ia := Option.some.inj (hva'.symm.trans hA)
    have hvb2 : vb = generate _ ib := Option.some.inj (hvb'.symm.trans hB)
    rw [hva2, hvb2]
    exact generate_length_mono _ hlen (by omega)
  · have := pairwise_rel_of_pair_sublist hpw hsub
    omega

/-- Witness for C7: with `flex` used twice in analyzed program text and
`block` unused, extraction assigns `flex` a name no longer than `block`'s. -/
theorem higher_usage_shorter_name_witness :
    (extractFromCSS 10 (analyzeEvents (initState []) [.strLit "flex flex"])
      ["block", "flex"]).map
      (fun s => (s.classMap.lookup "flex", s.classMap.lookup "block"))
      = some (some "l", some "e") ∧ ("l" : String).length ≤ ("e" : String).length := by
  refine ⟨by decide, ?_⟩
  exact higher_usage_shorter_name 10
    (analyzeEvents (initState []) [.strLit "flex flex"])
    ((extractFromCSS 10 (analyzeEvents (initState []) [.strLit "flex flex"])
      ["block", "flex"]).get (by decide))
    ["block", "flex"] rfl (Option.some_get (by decide)).symm
    "flex" "block" (by decide) (by decide) (by decide)
    "l" "e" (by decide) (by decide)

/-- C2 counterexample: calling `extractFromCSS` twice on the same
stylesheet (a single class `b`) does not yield an identical mapping:
`reset()` clears only the generator's frequency counters, while the
allocation cursor `currentIndex` is never reset, so the second call
assigns the fresh name `e` (index 1) where the first call assigned `b`
(index 0). -/
theorem extractFromCSS_not_idempotent_cex :
    (extractFromCSS 10 (initState []) ["b"]).map MState.classMap
      = some [("b", "b")] ∧
    ((extractFromCSS 10 (initState []) ["b"]).bind
      (fun s1 => extractFromCSS 10 s1 ["b"])).map MState.classMap
      = some [("b", "e")] ∧
    ¬([("b", "b")] : ClassMap) = [("b", "e")] :=
  ⟨by decide, by decide, by decide⟩

/-- C2 (amended): calling `extractFromCSS` twice with the same stylesheet
text and no intervening `analyzeJS` calls re-derives the frequencies and
the same key set from scratch, but it is not idempotent: the allocation
cursor persists across calls, so every non-excluded key receives a fresh
name different from the one the first call assigned. -/
theorem extractFromCSS_twice_same_keys_fresh_names
    (fuel : Nat) (st st1 st2 : MState) (classNodes : List String)
    (hmap0 : st.classMap = [])
    (h1 : extractFromCSS fuel st classNodes = some st1)
    (h2 : extractFromCSS fuel st1 classNodes = some st2) :
    (∀ k, (st2.classMap.lookup k).isSome = (st1.classMap.lookup k).isSome) ∧
    (∀ k, isExcluded st k = false → (st1.classMap.lookup k).isSome = true →
      st2.classMap.lookup k ≠ st1.classMap.lookup k) := by
  obtain ⟨i1, m1, hal1, hst1⟩ := extractFromCSS_spec h1
  subst hst1
  obtain ⟨i2, m2, hal2, hst2⟩ := extractFromCSS_spec h2
  subst hst2
  have hnd := sortedClasses_nodup st classNodes
  obtain ⟨hle1, hout1, hin1⟩ := assignLoop_spec st _ fuel _
    st.currentIndex st.classMap i1 m1 hnd hal1
  obtain ⟨hle2, hout2, hin2⟩ := assignLoop_spec _ _ fuel _ i1 m1 i2 m2
    (sortedClasses_nodup _ classNodes) hal2
  dsimp only at hout2 hin2
  simp only [isExcluded_update] at hin2
  have hndc : (sortByFrequency (classNodes.foldl recordUsage resetFreq)).Nodup :=
    sortByFrequency_nodup _
  have hlen : 2 ≤ (sortByFrequency (classNodes.foldl recordUsage resetFreq)).length := by
    rw [sortByFrequency_length]
    omega
  constructor
  · intro k
    show (m2.lookup k).isSome = (m1.lookup k).isSome
    by_cases hk : k ∈ classNodes
    · have hk1 := (mem_sortedClasses st classNodes).mpr hk
      cases hex : isExcluded st k with
      | true =>
        rw [(hin1 k hk1).1 hex, (hin2 k hk1).1 hex]
      | false =>
        obtain ⟨i, _, _, hvi⟩ := (hin1 k hk1).2 hex
        obtain ⟨j, _, _, hvj⟩ := (hin2 k hk1).2 hex
        rw [hvi, hvj]
        rfl
    · have hout := hout2 k (fun hc => hk ((mem_sortedClasses st classNodes).mp hc))
      rw [hout]
  · intro k hexk hsome1
    show m2.lookup k ≠ m1.lookup k
    have hsome1' : (m1.lookup k).isSome = true := hsome1
    have hk : k ∈ classNodes := by
      by_contra hc
      rw [hout1 k (fun hc2 => hc ((mem_sortedClasses st classNodes).mp hc2)), hmap0]
        at hsome1'
      simp [List.lookup] at hsome1'
    have hk1 := (mem_sortedClasses st classNodes).mpr hk
    obtain ⟨i, hi0, hi1, hvi⟩ := (hin1 k hk1).2 hexk
    obtain ⟨j, hj0, hj1, hvj⟩ := (hin2 k hk1).2 hexk
    rw [hvi, hvj]
    intro heq
    have := generate_inj _ hndc hlen (Option.some.inj heq)
    omega

/-- Witness for C2's amended statement: after two extractions of the same
single-class stylesheet, the key `b` is still mapped, but to a different
name than after the first extraction. -/
theorem extractFromCSS_twice_same_keys_fresh_names_witness :
    (extractFromCSS 10 (initState []) ["b"]).map
      (fun s1 => (extractFromCSS 10 s1 ["b"]).map
        (fun s2 => decide (s2.classMap.lookup "b" ≠ s1.classMap.lookup "b")))
      = some (some true) := by
  have h1 : extractFromCSS 10 (initState []) ["b"]
      = some ((extractFromCSS 10 (initState []) ["b"]).get (by decide)) :=
    (Option.some_get (by decide)).symm
  have h2 : extractFromCSS 10
        ((extractFromCSS 10 (initState []) ["b"]).get (by decide)) ["b"]
      = some ((extractFromCSS 10
        ((extractFromCSS 10 (initState []) ["b"]).get (by decide)) ["b"]).get
          (by decide)) :=
    (Option.some_get (by decide)).symm
  have hmain := extractFromCSS_twice_same_keys_fresh_names 10 (initState [])
    ((extractFromCSS 10 (initState []) ["b"]).get (by decide))
    ((extractFromCSS 10
      ((extractFromCSS 10 (initState []) ["b"]).get (by decide)) ["b"]).get
        (by decide))
    ["b"] rfl h1 h2
  have hne := hmain.2 "b" rfl (by decide)
  rw [h1, Option.map_some']
  rw [h2, Option.map_some']
  rw [decide_eq_true hne]

end Mimicss
